import Mathlib

/-!
Verification of the job-control core of the tiny shell (`tsh.c`).

The definitions below are a shallow embedding of the job table, the
`fg`/`bg` built-in, and the signal handlers of the shell.  C machine
integers (`pid_t`, `int`) are modelled as `Int`; the fixed-capacity
array `jobs[MAXJOBS]` is modelled as a `List Job` of length 16 whose
slots are updated in place (every operation preserves positions and
length, mirroring the array); `printf`/`sio_puts` output, `kill` calls
and the `waitfg` blocking wait are recorded as an ordered trace of
explicit effects.  The `verbose` flag of the shell is `false`, so the
diagnostic print in `addjob` is not modelled.  `atoi` is modelled
without machine-level overflow, which is irrelevant for the command
arguments considered here.
-/

namespace Tsh

/-- Job states, copied from the `#define`s in `tsh.c`. -/
def UNDEF : Int := 0

/-- Foreground state (`FG`). -/
def FG : Int := 1

/-- Background state (`BG`). -/
def BG : Int := 2

/-- Stopped state (`ST`). -/
def ST : Int := 3

/-- Maximum number of jobs (`MAXJOBS`), used both as the capacity and the
wraparound bound of the job-id counter. -/
def MAXJOBS : Int := 16

/-- Capacity of the job table as a `Nat`, for building the initial list. -/
def NSLOTS : Nat := 16

/-- Signal numbers for x86-64 Linux, as used by `tsh.c`. -/
def SIGINT : Nat := 2

/-- Signal number of SIGKILL. -/
def SIGKILL : Nat := 9

/-- Signal number of SIGCONT. -/
def SIGCONT : Nat := 18

/-- Signal number of SIGTSTP. -/
def SIGTSTP : Nat := 20

/-- One slot of the job table (`struct Job`). -/
structure Job where
  pid : Int
  jid : Int
  state : Int
  cmdline : String
deriving DecidableEq, Repr

/-- The contents of a cleared slot (`clearjob`). -/
def clearedJob : Job := ⟨0, 0, UNDEF, ""⟩

/-- The shared mutable state of the job list: the slot array `jobs` and
the counter `nextjid`. -/
structure JobsState where
  jobs : List Job
  nextjid : Int
deriving DecidableEq, Repr

/-- The state after `initjobs(jobs)` with `nextjid = 1`. -/
def initState : JobsState := ⟨List.replicate NSLOTS clearedJob, 1⟩

/-- Slot predicate `jobs[i].pid == v`. -/
def pidPred (v : Int) : Job → Prop := fun j => j.pid = v

instance pidPredDec (v : Int) : DecidablePred (pidPred v) :=
  fun j => inferInstanceAs (Decidable (j.pid = v))

/-- Slot predicate `jobs[i].jid == v`. -/
def jidPred (v : Int) : Job → Prop := fun j => j.jid = v

instance jidPredDec (v : Int) : DecidablePred (jidPred v) :=
  fun j => inferInstanceAs (Decidable (j.jid = v))

/-- Linear scan returning the first slot satisfying `p`; this models the
`for` loops of `getjobpid`, `getjobjid`, `addjob` and `deletejob`, which
all return (a pointer to) the first matching slot. -/
def findFirst (p : Job → Prop) [DecidablePred p] : List Job → Option Job
  | [] => none
  | j :: rest => if p j then some j else findFirst p rest

/-- In-place update of the first slot satisfying `p`; this models a write
through the pointer returned by the linear scan. -/
def updFirst (p : Job → Prop) [DecidablePred p] (f : Job → Job) : List Job → List Job
  | [] => []
  | j :: rest => if p j then f j :: rest else j :: updFirst p f rest

/-- Count of slots satisfying `p`, used to state uniqueness properties. -/
def countIf (p : Job → Prop) [DecidablePred p] : List Job → Nat
  | [] => 0
  | j :: rest => (if p j then 1 else 0) + countIf p rest

/-- The running maximum of `maxjid`: fold of `if jobs[i].jid > max` over
the slots, starting from `m`. -/
def maxjidFrom (m : Int) : List Job → Int
  | [] => m
  | j :: rest => maxjidFrom (if j.jid > m then j.jid else m) rest

/-- `maxjid(jobs)`: largest `jid` field over all slots, starting from 0. -/
def maxjid (t : List Job) : Int := maxjidFrom 0 t

/-- `fgpid(jobs)`: pid of the first slot in state `FG`, or 0. -/
def fgpid : List Job → Int
  | [] => 0
  | j :: rest => if j.state = FG then j.pid else fgpid rest

/-- `getjobpid(jobs, pid)`: `none` for `pid < 1`, otherwise the first slot
whose `pid` field matches. -/
def getjobpid (t : List Job) (pid : Int) : Option Job :=
  if pid < 1 then none else findFirst (pidPred pid) t

/-- `getjobjid(jobs, jid)`: `none` for `jid < 1`, otherwise the first slot
whose `jid` field matches. -/
def getjobjid (t : List Job) (jid : Int) : Option Job :=
  if jid < 1 then none else findFirst (jidPred jid) t

/-- `pid2jid(pid)`: the `jid` of the first slot whose `pid` matches, or 0. -/
def pid2jid (t : List Job) (pid : Int) : Int :=
  if pid < 1 then 0 else
    match findFirst (pidPred pid) t with
    | some j => j.jid
    | none => 0

/-- Result of `addjob`: the new shared state, the returned `bool`, and the
lines printed (the table-full diagnostic, printed non-fatally). -/
structure AddResult where
  st : JobsState
  ok : Bool
  out : List String
deriving DecidableEq, Repr

/-- `addjob(jobs, pid, state, cmdline)`: fails silently for `pid < 1`;
otherwise fills the first empty slot (`pid == 0`) with the given fields
and `jid = nextjid`, then advances `nextjid`, wrapping to 1 past
`MAXJOBS`; if no slot is empty it prints a diagnostic and returns false
leaving everything unchanged. -/
def addjob (s : JobsState) (pid state : Int) (cmdline : String) : AddResult :=
  if pid < 1 then ⟨s, false, []⟩
  else
    match findFirst (pidPred 0) s.jobs with
    | some _ =>
        ⟨⟨updFirst (pidPred 0) (fun _ => ⟨pid, s.nextjid, state, cmdline⟩) s.jobs,
          if s.nextjid + 1 > MAXJOBS then 1 else s.nextjid + 1⟩, true, []⟩
    | none => ⟨s, false, ["Tried to create too many jobs\n"]⟩

/-- `deletejob(jobs, pid)`: fails for `pid < 1` or no matching slot;
otherwise clears the first matching slot and rebases `nextjid` to
`maxjid(jobs) + 1` computed on the cleared table. -/
def deletejob (s : JobsState) (pid : Int) : JobsState × Bool :=
  if pid < 1 then (s, false)
  else
    match findFirst (pidPred pid) s.jobs with
    | some _ =>
        let t2 := updFirst (pidPred pid) (fun _ => clearedJob) s.jobs
        (⟨t2, maxjid t2 + 1⟩, true)
    | none => (s, false)

/-- Observable effects of one shell routine, in program order: a `kill`
call (target as passed to `kill`, so a process group is a negative
number), one burst of output (`printf` or one `sio` call), or a call to
`waitfg` blocking on a pid. -/
inductive Eff where
  | sig : Int → Nat → Eff
  | print : String → Eff
  | wait : Int → Eff
deriving DecidableEq, Repr

/-- Character of `argv[1]` at index `i`, with the terminating NUL for an
out-of-range index, as in C. -/
def charAt (cs : List Char) (i : Nat) : Char := cs.getD i (Char.ofNat 0)

/-- Digit-accumulation loop of `atoi`. -/
def atoiNum : List Char → Int → Int
  | [], acc => acc
  | c :: cs, acc => if c.isDigit then atoiNum cs (acc * 10 + (c.toNat - 48)) else acc

/-- C `isspace` characters. -/
def isSpaceC (c : Char) : Bool :=
  c == ' ' || c == Char.ofNat 9 || c == Char.ofNat 10 || c == Char.ofNat 11 ||
  c == Char.ofNat 12 || c == Char.ofNat 13

/-- `atoi`: skip whitespace, optional sign, then leading digits (0 when
there are none). -/
def atoi (cs : List Char) : Int :=
  match cs.dropWhile isSpaceC with
  | '-' :: rest => - atoiNum rest 0
  | '+' :: rest => atoiNum rest 0
  | rest => atoiNum rest 0

/-- How `do_bgfg` located its target: through the jid scan (`%jid`
argument) or through the pid scan (bare pid argument).  The later write
`currjob->state = ...` goes through the returned pointer, i.e. to the
first slot matching the same criterion. -/
inductive BgfgKey where
  | byJid : Int → BgfgKey
  | byPid : Int → BgfgKey
deriving DecidableEq, Repr

/-- The slot predicate corresponding to a `BgfgKey`. -/
def keyPred : BgfgKey → Job → Prop
  | .byJid v => jidPred v
  | .byPid v => pidPred v

instance keyPredDec : (k : BgfgKey) → DecidablePred (keyPred k)
  | .byJid v => jidPredDec v
  | .byPid v => pidPredDec v

/-- Positivity of the scanned-for id, recorded by the `getjob*` guards. -/
def keyPos : BgfgKey → Prop
  | .byJid v => 1 ≤ v
  | .byPid v => 1 ≤ v

/-- Error message of `do_bgfg` for a missing argument. -/
def msgMissing (cmd : String) : String :=
  cmd ++ " command requires PID or %jobid argument\n"

/-- Error message of `do_bgfg` for a malformed target token. -/
def msgMalformed (cmd : String) : String :=
  cmd ++ ": argument must be a PID or %jobid\n"

/-- Error message of `do_bgfg` when no job has the requested jid. -/
def msgNoJob (a : String) : String := a ++ ": No such job\n"

/-- Error message of `do_bgfg` when no job has the requested pid. -/
def msgNoProc (a : String) : String := "(" ++ a ++ "): No such process\n"

/-- Outcome of the argument-checking prefix of `do_bgfg`. -/
inductive Resolution where
  | ok : BgfgKey → Job → Resolution
  | err : String → Resolution
deriving DecidableEq, Repr

/-- The argument-checking prefix of `do_bgfg` (lines 560-592 of `tsh.c`):
a `%`-prefixed token whose next character is a digit is looked up as a
jid via `atoi(&argv[1][1])`; otherwise a token with a nonzero `atoi`
value is looked up as a pid; each failure yields its `printf` message. -/
def bgfgResolve (cmd a : String) (t : List Job) : Resolution :=
  if charAt a.toList 0 = '%' then
    if (charAt a.toList 1).isDigit then
      match getjobjid t (atoi (a.toList.drop 1)) with
      | some j => .ok (.byJid (atoi (a.toList.drop 1))) j
      | none => .err (msgNoJob a)
    else .err (msgMalformed cmd)
  else if atoi a.toList ≠ 0 then
    match getjobpid t (atoi a.toList) with
    | some j => .ok (.byPid (atoi a.toList)) j
    | none => .err (msgNoProc a)
  else .err (msgMalformed cmd)

/-- The action part of `do_bgfg` (lines 595-619): a stopped target is
sent `SIGCONT` first (to its whole process group, `-pid`); then `fg`
sets the state to `FG` and calls `waitfg`, while `bg` sets it to `BG`
and prints the `[jid] (pid) cmdline` acknowledgement. -/
def bgfgProceed (cmd : String) (key : BgfgKey) (j : Job) (s : JobsState) :
    JobsState × List Eff :=
  let cont : List Eff := if j.state = ST then [.sig (-j.pid) SIGCONT] else []
  if cmd = "fg" then
    (⟨updFirst (keyPred key) (fun x => ⟨x.pid, x.jid, FG, x.cmdline⟩) s.jobs, s.nextjid⟩,
     cont ++ [.wait j.pid])
  else if cmd = "bg" then
    let t2 := updFirst (keyPred key) (fun x => ⟨x.pid, x.jid, BG, x.cmdline⟩) s.jobs
    (⟨t2, s.nextjid⟩,
     cont ++ [.print ("[" ++ toString (pid2jid t2 j.pid) ++ "] (" ++ toString j.pid ++
              ") " ++ j.cmdline)])
  else (s, cont)

/-- `do_bgfg(argv)` with `argv[0] = cmd` and `argv[1] = arg` (`none` when
absent). -/
def do_bgfg (cmd : String) (arg : Option String) (s : JobsState) : JobsState × List Eff :=
  match arg with
  | none => (s, [.print (msgMissing cmd)])
  | some a =>
      match bgfgResolve cmd a s.jobs with
      | .err m => (s, [.print m])
      | .ok key j => bgfgProceed cmd key j s

/-- The `signame` array of `tsh.c` (x86-64 Linux signal names). -/
def signame : Nat → String
  | 0 => "Signal 0"
  | 1 => "HUP"
  | 2 => "INT"
  | 3 => "QUIT"
  | 4 => "ILL"
  | 5 => "TRAP"
  | 6 => "ABRT"
  | 7 => "BUS"
  | 8 => "FPE"
  | 9 => "KILL"
  | 10 => "USR1"
  | 11 => "SEGV"
  | 12 => "USR2"
  | 13 => "PIPE"
  | 14 => "ALRM"
  | 15 => "TERM"
  | 16 => "STKFLT"
  | 17 => "CHLD"
  | 18 => "CONT"
  | 19 => "STOP"
  | 20 => "TSTP"
  | 21 => "TTIN"
  | 22 => "TTOU"
  | 23 => "URG"
  | 24 => "XCPU"
  | 25 => "XFSZ"
  | 26 => "VTALRM"
  | 27 => "PROF"
  | 28 => "WINCH"
  | 29 => "IO"
  | 30 => "PWR"
  | 31 => "Signal 31"
  | _ => ""

/-- One child-state change reported by `waitpid(-1, &status,
WNOHANG | WUNTRACED)`: normal exit, termination by an uncaught signal
(`WTERMSIG`), or stop by a signal (`WSTOPSIG`). -/
inductive ChildEvent where
  | exited : Int → ChildEvent
  | signaled : Int → Nat → ChildEvent
  | stopped : Int → Nat → ChildEvent
deriving DecidableEq, Repr

/-- One iteration of the reaping loop of `sigchld_handler` (lines
729-771).  Normal exit: delete silently.  Uncaught fatal signal: emit
the `sio_puts`/`sio_putl` sequence — whose signal description is the
string literal `") terminated by signal SIGINT"` irrespective of the
actual signal — then delete.  Stop: set the slot state to `ST` through
the `getjobpid` pointer and print the stopping signal's name; when the
stopped pid is untracked the C code dereferences a null `currjob`, which
the model renders as `none`. -/
def sigchldStep (s : JobsState) (e : ChildEvent) : Option (JobsState × List Eff) :=
  match e with
  | .exited pid => some ((deletejob s pid).1, [])
  | .signaled pid _sig =>
      some ((deletejob s pid).1,
        [.print "Job [", .print (toString (pid2jid s.jobs pid)), .print "] (",
         .print (toString pid), .print ") terminated by signal SIGINT", .print "\n"])
  | .stopped pid sig =>
      match getjobpid s.jobs pid with
      | none => none
      | some _ =>
          some (⟨updFirst (pidPred pid) (fun x => ⟨x.pid, x.jid, ST, x.cmdline⟩)
                   s.jobs, s.nextjid⟩,
            [.print "Job [", .print (toString (pid2jid s.jobs pid)), .print "] (",
             .print (toString pid), .print ") stopped by signal SIG", .print (signame sig),
             .print "\n"])

/-- `sigint_handler`: forward SIGINT to the foreground process group when
one exists, otherwise do nothing; the job table is not touched. -/
def sigint_handler (s : JobsState) : JobsState × List Eff :=
  let pid := fgpid s.jobs
  if pid ≠ 0 then (s, [.sig (-pid) SIGINT]) else (s, [])

/-- `sigtstp_handler`: forward SIGTSTP to the foreground process group
when one exists, otherwise do nothing; the job table is not touched. -/
def sigtstp_handler (s : JobsState) : JobsState × List Eff :=
  let pid := fgpid s.jobs
  if pid ≠ 0 then (s, [.sig (-pid) SIGTSTP]) else (s, [])

/-- Concatenation of the printed output in an effect trace. -/
def effOutput : List Eff → String
  | [] => ""
  | .print s :: rest => s ++ effOutput rest
  | _ :: rest => effOutput rest

/-- Bool prefix test on character lists, for stating substring facts. -/
def leadsWith : List Char → List Char → Bool
  | [], _ => true
  | _ :: _, [] => false
  | a :: as, b :: bs => a == b && leadsWith as bs

/-- Bool substring test on character lists. -/
def containsSub (needle : List Char) : List Char → Bool
  | [] => leadsWith needle []
  | c :: rest => leadsWith needle (c :: rest) || containsSub needle rest

/-- Position of the control loop: at the prompt, or blocked inside
`waitfg(pid)` (either from a foreground launch in `eval` or from
`do_bgfg` executing `fg`). -/
inductive Mode where
  | ready : Mode
  | waiting : Int → Mode
deriving DecidableEq, Repr

/-- Mode of the control loop after running a `do_bgfg` trace: blocked on
the pid of the first `waitfg` call if there is one. -/
def modeAfter : List Eff → Mode
  | [] => .ready
  | .wait p :: _ => .waiting p
  | .sig _ _ :: rest => modeAfter rest
  | .print _ :: rest => modeAfter rest

/-- Whole-shell state: the shared job list plus the control-loop
position. -/
structure ShellState where
  st : JobsState
  mode : Mode
deriving DecidableEq, Repr

/-- Transitions of the shell's job-control state machine.  Control-loop
transitions (launching a parsed external command as foreground or
background, and the `fg`/`bg` built-ins) require the loop to be at the
prompt; one `waitpid` reap of `sigchld_handler` can preempt at any
point; `waitfg` returns exactly when `fgpid` differs from the waited
pid (the `sigsuspend` loop re-checks this condition). -/
inductive Step : ShellState → ShellState → Prop where
  | launchFG (s : ShellState) (pid : Int) (cmd : String) (h : s.mode = .ready) :
      Step s ⟨(addjob s.st pid FG cmd).st, .waiting pid⟩
  | launchBG (s : ShellState) (pid : Int) (cmd : String) (h : s.mode = .ready) :
      Step s ⟨(addjob s.st pid BG cmd).st, .ready⟩
  | resume (s : ShellState) (c : String) (arg : Option String) (h : s.mode = .ready)
      (hc : c = "fg" ∨ c = "bg") :
      Step s ⟨(do_bgfg c arg s.st).1, modeAfter (do_bgfg c arg s.st).2⟩
  | wake (s : ShellState) (p : Int) (h : s.mode = .waiting p)
      (hfg : fgpid s.st.jobs ≠ p) :
      Step s ⟨s.st, .ready⟩
  | reap (s : ShellState) (e : ChildEvent) (r : JobsState × List Eff)
      (h : sigchldStep s.st e = some r) :
      Step s ⟨r.1, s.mode⟩

/-- States reachable from the freshly initialized shell. -/
inductive Reachable : ShellState → Prop where
  | init : Reachable ⟨initState, .ready⟩
  | step {s t : ShellState} : Reachable s → Step s t → Reachable t

/-- Number of slots in state `FG`. -/
def fgCount (t : List Job) : Nat := countIf (fun j => j.state = FG) t

/-- A slot with `pid = 0` is fully cleared. -/
def CleanTable (t : List Job) : Prop :=
  ∀ j ∈ t, j.pid = 0 → j.jid = 0 ∧ j.state = UNDEF ∧ j.cmdline = ""

instance cleanTableDec (t : List Job) : Decidable (CleanTable t) :=
  inferInstanceAs
    (Decidable (∀ j ∈ t, j.pid = 0 → j.jid = 0 ∧ j.state = UNDEF ∧ j.cmdline = ""))

/-- Inductive invariant of the state machine: at most one foreground
slot; none while the control loop is at the prompt; while `waitfg(p)`
runs every foreground slot has pid `p`; and empty slots are cleared. -/
def Inv (s : ShellState) : Prop :=
  fgCount s.st.jobs ≤ 1 ∧
  (s.mode = .ready → fgCount s.st.jobs = 0) ∧
  (∀ p, s.mode = .waiting p → ∀ j ∈ s.st.jobs, j.state = FG → j.pid = p) ∧
  CleanTable s.st.jobs

/-- One `addjob`/`deletejob` call, for stating properties of arbitrary
sequences of job-table operations. -/
inductive TableOp where
  | add : Int → Int → String → TableOp
  | del : Int → TableOp
deriving DecidableEq, Repr

/-- Apply one table operation. -/
def applyOp (s : JobsState) : TableOp → JobsState
  | .add p stv c => (addjob s p stv c).st
  | .del p => (deletejob s p).1

/-- Apply a sequence of table operations from left to right. -/
def applyOps (s : JobsState) : List TableOp → JobsState
  | [] => s
  | op :: rest => applyOps (applyOp s op) rest

/-- Every `add` in the sequence uses a pid that is not currently live
(as pids handed out by `fork` are). -/
def freshSeq (s : JobsState) : List TableOp → Bool
  | [] => true
  | .add p stv c :: rest =>
      (getjobpid s.jobs p).isNone && freshSeq (applyOp s (.add p stv c)) rest
  | .del p :: rest => freshSeq (applyOp s (.del p)) rest

/-- No two live slots share a pid. -/
def pidsUnique (t : List Job) : Prop :=
  ∀ p : Int, p ≠ 0 → countIf (fun j => j.pid = p) t ≤ 1

/-- Penultimate character of a string, used to separate the fixed
suffixes of the `do_bgfg` error messages. -/
def penult (s : String) : Option Char := s.data.reverse[1]?

/-! ### Concrete states and operation sequences used as test inputs -/

/-- A full table: 16 live jobs added to the fresh table. -/
def exFull : JobsState :=
  applyOps initState
    [.add 1 BG "", .add 2 BG "", .add 3 BG "", .add 4 BG "", .add 5 BG "",
     .add 6 BG "", .add 7 BG "", .add 8 BG "", .add 9 BG "", .add 10 BG "",
     .add 11 BG "", .add 12 BG "", .add 13 BG "", .add 14 BG "", .add 15 BG "",
     .add 16 BG ""]

/-- A table with one stopped job (pid 5, jid 1). -/
def exStop : JobsState := ⟨⟨5, 1, ST, "sleep 2\n"⟩ :: List.replicate 15 clearedJob, 2⟩

/-- A table with one foreground job (pid 9, jid 1). -/
def exFG : JobsState := ⟨⟨9, 1, FG, "cat\n"⟩ :: List.replicate 15 clearedJob, 2⟩

/-- A table with one background job (pid 42, jid 1), as left by launching
`mycmd &`. -/
def cexC3 : JobsState := (addjob initState 42 BG "mycmd\n").st

/-- Two `addjob` calls with the same pid — `addjob` performs no
duplicate check. -/
def cexC2pidOps : List TableOp := [.add 1 BG "", .add 1 BG ""]

/-- An all-fresh-pid sequence after which the wrapped-around job-id
counter reassigns the still-live jid 1: fill jids 1-15, free the slot of
jid 14, add a 16th job (jid 16, counter wraps to 1), then add another. -/
def cexC2jidOps : List TableOp :=
  [.add 1 BG "", .add 2 BG "", .add 3 BG "", .add 4 BG "", .add 5 BG "",
   .add 6 BG "", .add 7 BG "", .add 8 BG "", .add 9 BG "", .add 10 BG "",
   .add 11 BG "", .add 12 BG "", .add 13 BG "", .add 14 BG "", .add 15 BG "",
   .del 14, .add 16 BG "", .add 17 BG ""]

/-- A fresh-pid sequence for the C2 witness. -/
def exC2wOps : List TableOp := [.add 1 BG "", .add 2 BG "", .del 1]

/-- A table whose live jids are {1, 5}: jids 1-5 assigned, then the jobs
holding jids 2, 3, 4 removed. -/
def cexC4 : JobsState :=
  applyOps initState
    [.add 1 BG "", .add 2 BG "", .add 3 BG "", .add 4 BG "", .add 5 BG "",
     .del 2, .del 3, .del 4]

/-- Shell state after launching one background job (pid 5). -/
def cexC6a : ShellState := ⟨(addjob initState 5 BG "x\n").st, .ready⟩

/-- Shell state after then running `fg 5`. -/
def cexC6b : ShellState :=
  ⟨(do_bgfg "fg" (some "5") cexC6a.st).1, modeAfter (do_bgfg "fg" (some "5") cexC6a.st).2⟩

/-- Shell state after launching one foreground job (pid 7). -/
def cexC6wa : ShellState := ⟨(addjob initState 7 FG "y\n").st, .waiting 7⟩

/-- Shell state after the handler then reaps the exit of pid 7. -/
def cexC6wb : ShellState := ⟨(deletejob cexC6wa.st 7).1, .waiting 7⟩

/-! ### Generic lemmas about the linear-scan primitives -/

theorem findFirst_mem {p : Job → Prop} [DecidablePred p] :
    ∀ {t : List Job} {j : Job}, findFirst p t = some j → j ∈ t := by
  intro t
  induction t with
  | nil => intro j h; simp [findFirst] at h
  | cons a rest ih =>
      intro j h
      by_cases ha : p a
      · simp [findFirst, ha] at h
        simp [h]
      · simp [findFirst, ha] at h
        exact List.mem_cons_of_mem a (ih h)

theorem findFirst_pred {p : Job → Prop} [DecidablePred p] :
    ∀ {t : List Job} {j : Job}, findFirst p t = some j → p j := by
  intro t
  induction t with
  | nil => intro j h; simp [findFirst] at h
  | cons a rest ih =>
      intro j h
      by_cases ha : p a
      · simp [findFirst, ha] at h; exact h ▸ ha
      · simp [findFirst, ha] at h; exact ih h

theorem findFirst_none_iff {p : Job → Prop} [DecidablePred p] :
    ∀ {t : List Job}, findFirst p t = none ↔ ∀ x ∈ t, ¬ p x := by
  intro t
  induction t with
  | nil => simp [findFirst]
  | cons a rest ih =>
      by_cases ha : p a
      · simp [findFirst, ha]
      · simp [findFirst, ha, ih]

theorem updFirst_of_none {p : Job → Prop} [DecidablePred p] (f : Job → Job) :
    ∀ {t : List Job}, findFirst p t = none → updFirst p f t = t := by
  intro t
  induction t with
  | nil => intro _; rfl
  | cons a rest ih =>
      intro h
      by_cases ha : p a
      · simp [findFirst, ha] at h
      · simp [findFirst, ha] at h
        simp [updFirst, ha, ih h]

theorem findFirst_decomp (p : Job → Prop) [DecidablePred p] (f : Job → Job) :
    ∀ {t : List Job} {j : Job}, findFirst p t = some j →
      ∃ l1 l2, t = l1 ++ j :: l2 ∧ (∀ x ∈ l1, ¬ p x) ∧ p j ∧
        updFirst p f t = l1 ++ f j :: l2 := by
  intro t
  induction t with
  | nil => intro j h; simp [findFirst] at h
  | cons a rest ih =>
      intro j h
      by_cases ha : p a
      · simp [findFirst, ha] at h
        subst h
        exact ⟨[], rest, by simp, by simp, ha, by simp [updFirst, ha]⟩
      · simp [findFirst, ha] at h
        obtain ⟨l1, l2, hsplit, hl1, hpj, hupd⟩ := ih h
        refine ⟨a :: l1, l2, by simp [hsplit], ?_, hpj, ?_⟩
        · intro x hx
          rcases List.mem_cons.mp hx with hx | hx
          · exact hx ▸ ha
          · exact hl1 x hx
        · simp [updFirst, ha, hupd]

theorem countIf_append (p : Job → Prop) [DecidablePred p] :
    ∀ (l1 l2 : List Job), countIf p (l1 ++ l2) = countIf p l1 + countIf p l2 := by
  intro l1 l2
  induction l1 with
  | nil => simp [countIf]
  | cons a rest ih => simp [countIf, ih]; omega

theorem countIf_eq_zero {p : Job → Prop} [DecidablePred p] :
    ∀ {t : List Job}, countIf p t = 0 ↔ ∀ x ∈ t, ¬ p x := by
  intro t
  induction t with
  | nil => simp [countIf]
  | cons a rest ih =>
      by_cases ha : p a
      · simp [countIf, ha]
      · simp [countIf, ha, ih]

theorem le_maxjidFrom : ∀ (t : List Job) (m : Int), m ≤ maxjidFrom m t := by
  intro t
  induction t with
  | nil => intro m; simp [maxjidFrom]
  | cons a rest ih =>
      intro m
      have h1 : m ≤ (if a.jid > m then a.jid else m) := by
        split <;> omega
      exact le_trans h1 (ih _)

theorem jid_le_maxjidFrom :
    ∀ {t : List Job} {x : Job}, x ∈ t → ∀ m : Int, x.jid ≤ maxjidFrom m t := by
  intro t
  induction t with
  | nil => intro x hx; simp at hx
  | cons a rest ih =>
      intro x hx m
      rcases List.mem_cons.mp hx with hx | hx
      · subst hx
        have h1 : x.jid ≤ (if x.jid > m then x.jid else m) := by split <;> omega
        exact le_trans h1 (le_maxjidFrom rest _)
      · exact ih hx _

theorem maxjidFrom_le :
    ∀ {t : List Job} {b : Int}, (∀ x ∈ t, x.jid ≤ b) → ∀ {m : Int}, m ≤ b →
      maxjidFrom m t ≤ b := by
  intro t
  induction t with
  | nil => intro b _ m hm; simpa [maxjidFrom] using hm
  | cons a rest ih =>
      intro b hb m hm
      show maxjidFrom (if a.jid > m then a.jid else m) rest ≤ b
      refine ih (fun x hx => hb x (List.mem_cons_of_mem a hx)) ?_
      have := hb a (List.mem_cons_self a rest)
      split <;> omega

theorem slot_of_decomp (l1 l2 : List Job) (j j2 : Job) (i : Nat) :
    ((l1 ++ j2 :: l2)[i]? = (l1 ++ j :: l2)[i]?) ∨
    ((l1 ++ j :: l2)[i]? = some j ∧ (l1 ++ j2 :: l2)[i]? = some j2) := by
  rcases lt_or_ge i l1.length with hi | hi
  · left
    rw [List.getElem?_append_left hi, List.getElem?_append_left hi]
  · rw [List.getElem?_append_right hi, List.getElem?_append_right hi]
    rcases Nat.eq_zero_or_pos (i - l1.length) with h0 | h0
    · right
      rw [h0]
      simp
    · left
      obtain ⟨k, hk⟩ := Nat.exists_eq_add_of_lt h0
      rw [hk]
      simp

/-! ### Case analyses of the job-table operations -/

theorem addjob_cases (t : List Job) (n p stv : Int) (c : String) :
    ((addjob ⟨t, n⟩ p stv c).st = ⟨t, n⟩ ∧ (addjob ⟨t, n⟩ p stv c).ok = false) ∨
    (1 ≤ p ∧ ∃ l1 j0 l2, t = l1 ++ j0 :: l2 ∧ j0.pid = 0 ∧ (∀ x ∈ l1, x.pid ≠ 0) ∧
      (addjob ⟨t, n⟩ p stv c).st.jobs = l1 ++ (⟨p, n, stv, c⟩ : Job) :: l2 ∧
      (addjob ⟨t, n⟩ p stv c).st.nextjid = (if n + 1 > MAXJOBS then 1 else n + 1) ∧
      (addjob ⟨t, n⟩ p stv c).ok = true) := by
  by_cases hp : p < 1
  · left
    simp [addjob, hp]
  · rcases hf : findFirst (pidPred 0) t with _ | j0
    · left
      simp [addjob, hp, hf]
    · right
      refine ⟨by omega, ?_⟩
      obtain ⟨l1, l2, hsplit, hl1, hpj, hupd⟩ :=
        findFirst_decomp (pidPred 0) (fun _ => (⟨p, n, stv, c⟩ : Job)) hf
      refine ⟨l1, j0, l2, hsplit, hpj, ?_, ?_, ?_, ?_⟩
      · intro x hx
        exact hl1 x hx
      · simp [addjob, hp, hf, hupd]
      · simp [addjob, hp, hf]
      · simp [addjob, hp, hf]

theorem deletejob_cases (t : List Job) (n p : Int) :
    ((deletejob ⟨t, n⟩ p).1 = ⟨t, n⟩ ∧ (deletejob ⟨t, n⟩ p).2 = false) ∨
    (1 ≤ p ∧ ∃ l1 j0 l2, t = l1 ++ j0 :: l2 ∧ j0.pid = p ∧ (∀ x ∈ l1, x.pid ≠ p) ∧
      (deletejob ⟨t, n⟩ p).1.jobs = l1 ++ clearedJob :: l2 ∧
      (deletejob ⟨t, n⟩ p).1.nextjid = maxjid (l1 ++ clearedJob :: l2) + 1 ∧
      (deletejob ⟨t, n⟩ p).2 = true) := by
  by_cases hp : p < 1
  · left
    simp [deletejob, hp]
  · rcases hf : findFirst (pidPred p) t with _ | j0
    · left
      simp [deletejob, hp, hf]
    · right
      refine ⟨by omega, ?_⟩
      obtain ⟨l1, l2, hsplit, hl1, hpj, hupd⟩ :=
        findFirst_decomp (pidPred p) (fun _ => clearedJob) hf
      refine ⟨l1, j0, l2, hsplit, hpj, ?_, ?_, ?_, ?_⟩
      · intro x hx
        exact hl1 x hx
      · simp [deletejob, hp, hf, hupd]
      · simp [deletejob, hp, hf, hupd]
      · simp [deletejob, hp, hf]

theorem fgCount_decomp (l1 l2 : List Job) (x : Job) :
    fgCount (l1 ++ x :: l2) =
      fgCount l1 + (if x.state = FG then 1 else 0) + fgCount l2 := by
  simp only [fgCount]
  rw [countIf_append]
  simp [countIf]
  omega

theorem cleanTable_decomp {l1 l2 : List Job} {x : Job}
    (h1 : CleanTable l1) (h2 : CleanTable l2) (hx : x.pid = 0 → x = clearedJob) :
    CleanTable (l1 ++ x :: l2) := by
  intro j hj hpid
  rcases List.mem_append.mp hj with hj | hj
  · exact h1 j hj hpid
  · rcases List.mem_cons.mp hj with hj | hj
    · subst hj
      have := hx hpid
      subst this
      exact ⟨rfl, rfl, rfl⟩
    · exact h2 j hj hpid

theorem cleanTable_of_append_left {l1 l2 : List Job} (h : CleanTable (l1 ++ l2)) :
    CleanTable l1 :=
  fun j hj => h j (List.mem_append.mpr (Or.inl hj))

theorem cleanTable_of_append_right {l1 l2 : List Job} (h : CleanTable (l1 ++ l2)) :
    CleanTable l2 :=
  fun j hj => h j (List.mem_append.mpr (Or.inr hj))

theorem cleanTable_of_cons {x : Job} {l : List Job} (h : CleanTable (x :: l)) :
    CleanTable l :=
  fun j hj => h j (List.mem_cons_of_mem x hj)

/-- `addjob` in a state with no foreground slot: the table stays clean,
the only possible foreground slot is the newly filled one (so it carries
the launched pid), and the foreground count is bounded by whether the
requested state is `FG`. -/
theorem addjob_inv (t : List Job) (n p stv : Int) (c : String)
    (hclean : CleanTable t) (hfg : fgCount t = 0) :
    CleanTable (addjob ⟨t, n⟩ p stv c).st.jobs ∧
    fgCount (addjob ⟨t, n⟩ p stv c).st.jobs ≤ (if stv = FG then 1 else 0) ∧
    (∀ j ∈ (addjob ⟨t, n⟩ p stv c).st.jobs, j.state = FG → j.pid = p) := by
  rcases addjob_cases t n p stv c with ⟨heq, _⟩ | ⟨hp, l1, j0, l2, hsplit, hpid0, _, hjobs, _, _⟩
  · rw [heq]
    have hnone : ∀ j ∈ t, j.state ≠ FG := by
      intro j hj
      exact countIf_eq_zero.mp hfg j hj
    refine ⟨hclean, ?_, fun j hj hFGj => absurd hFGj (hnone j hj)⟩
    show fgCount t ≤ _
    rw [hfg]
    exact Nat.zero_le _
  · subst hsplit
    rw [hjobs]
    have hz := hfg
    rw [show fgCount (l1 ++ j0 :: l2) =
          fgCount l1 + (if j0.state = FG then 1 else 0) + fgCount l2 from
        fgCount_decomp l1 l2 j0] at hz
    have hl1z : fgCount l1 = 0 := by omega
    have hl2z : fgCount l2 = 0 := by omega
    refine ⟨?_, ?_, ?_⟩
    · refine cleanTable_decomp (cleanTable_of_append_left hclean)
        (cleanTable_of_cons (cleanTable_of_append_right hclean)) ?_
      intro hp0
      simp at hp0
      omega
    · rw [fgCount_decomp]
      simp
      split <;> omega
    · intro j hj hFGj
      rcases List.mem_append.mp hj with hj | hj
      · exact absurd hFGj (countIf_eq_zero.mp hl1z j hj)
      · rcases List.mem_cons.mp hj with hj | hj
        · rw [hj]
        · exact absurd hFGj (countIf_eq_zero.mp hl2z j hj)

/-- `deletejob` keeps the table clean, never increases the foreground
count, and introduces no new foreground slot. -/
theorem deletejob_inv (t : List Job) (n p : Int) (hclean : CleanTable t) :
    CleanTable (deletejob ⟨t, n⟩ p).1.jobs ∧
    fgCount (deletejob ⟨t, n⟩ p).1.jobs ≤ fgCount t ∧
    (∀ j ∈ (deletejob ⟨t, n⟩ p).1.jobs, j.state = FG → j ∈ t) := by
  rcases deletejob_cases t n p with ⟨heq, _⟩ | ⟨hp, l1, j0, l2, hsplit, hpid0, _, hjobs, _, _⟩
  · rw [heq]
    exact ⟨hclean, le_refl _, fun j hj _ => hj⟩
  · subst hsplit
    rw [hjobs]
    refine ⟨?_, ?_, ?_⟩
    · refine cleanTable_decomp (cleanTable_of_append_left hclean)
        (cleanTable_of_cons (cleanTable_of_append_right hclean)) (fun _ => rfl)
    · rw [fgCount_decomp, fgCount_decomp]
      have h1 : (if clearedJob.state = FG then 1 else 0) = 0 := by decide
      rw [h1]
      omega
    · intro j hj hFGj
      rcases List.mem_append.mp hj with hj | hj
      · exact List.mem_append.mpr (Or.inl hj)
      · rcases List.mem_cons.mp hj with hj | hj
        · subst hj
          exact absurd hFGj (by decide)
        · exact List.mem_append.mpr (Or.inr (List.mem_cons_of_mem j0 hj))

/-- Inversion of a successful `getjobjid` lookup. -/
theorem getjobjid_inv {t : List Job} {v : Int} {j : Job}
    (hg : getjobjid t v = some j) :
    findFirst (jidPred v) t = some j ∧ 1 ≤ v := by
  unfold getjobjid at hg
  split at hg
  · cases hg
  · next hlt => exact ⟨hg, by omega⟩

/-- Inversion of a successful `getjobpid` lookup. -/
theorem getjobpid_inv {t : List Job} {v : Int} {j : Job}
    (hg : getjobpid t v = some j) :
    findFirst (pidPred v) t = some j ∧ 1 ≤ v := by
  unfold getjobpid at hg
  split at hg
  · cases hg
  · next hlt => exact ⟨hg, by omega⟩

/-- Inversion of a successful `do_bgfg` argument resolution: the target
was genuinely found by the corresponding scan, for a positive id. -/
theorem bgfgResolve_ok {cmd a : String} {t : List Job} {key : BgfgKey} {j : Job}
    (h : bgfgResolve cmd a t = .ok key j) :
    findFirst (keyPred key) t = some j ∧ keyPos key := by
  unfold bgfgResolve at h
  split at h
  · split at h
    · split at h
      · next j2 hg =>
          injection h with hk hj
          subst hk
          subst hj
          obtain ⟨hf, hv⟩ := getjobjid_inv hg
          exact ⟨hf, hv⟩
      · exact absurd h (by simp)
    · exact absurd h (by simp)
  · split at h
    · split at h
      · next j2 hg =>
          injection h with hk hj
          subst hk
          subst hj
          obtain ⟨hf, hv⟩ := getjobpid_inv hg
          exact ⟨hf, hv⟩
      · exact absurd h (by simp)
    · exact absurd h (by simp)

/-- The target slot of `do_bgfg` is live, hence has a nonzero pid, on a
clean table. -/
theorem bgfgTarget_pid_ne {t : List Job} {key : BgfgKey} {j : Job}
    (hclean : CleanTable t) (hfind : findFirst (keyPred key) t = some j)
    (hpos : keyPos key) : j.pid ≠ 0 := by
  have hmem := findFirst_mem hfind
  have hpred := findFirst_pred hfind
  intro hp0
  have := hclean j hmem hp0
  cases key with
  | byJid v =>
      simp only [keyPred, jidPred] at hpred
      simp only [keyPos] at hpos
      omega
  | byPid v =>
      simp only [keyPred, pidPred] at hpred
      simp only [keyPos] at hpos
      omega

/-- Running `fg`/`bg` from the prompt (no foreground slot) keeps the
table clean, creates at most one foreground slot, creates none unless
the trace blocks in `waitfg`, and any foreground slot carries exactly
the waited-on pid. -/
theorem do_bgfg_inv (c : String) (arg : Option String) (t : List Job) (n : Int)
    (hclean : CleanTable t) (hfg : fgCount t = 0) :
    CleanTable (do_bgfg c arg ⟨t, n⟩).1.jobs ∧
    fgCount (do_bgfg c arg ⟨t, n⟩).1.jobs ≤ 1 ∧
    (modeAfter (do_bgfg c arg ⟨t, n⟩).2 = .ready →
        fgCount (do_bgfg c arg ⟨t, n⟩).1.jobs = 0) ∧
    (∀ q, modeAfter (do_bgfg c arg ⟨t, n⟩).2 = .waiting q →
        ∀ j ∈ (do_bgfg c arg ⟨t, n⟩).1.jobs, j.state = FG → j.pid = q) := by
  rcases arg with _ | a
  · refine ⟨hclean, ?_, ?_, ?_⟩
    · show fgCount t ≤ 1
      omega
    · intro _
      exact hfg
    · intro q hq
      simp [do_bgfg, modeAfter] at hq
  · rcases hres : bgfgResolve c a t with ⟨key, j⟩ | ⟨m⟩
    case err =>
      have hre : do_bgfg c (some a) ⟨t, n⟩ = (⟨t, n⟩, [.print m]) := by
        simp [do_bgfg, hres]
      rw [hre]
      refine ⟨hclean, by show fgCount t ≤ 1; omega, fun _ => hfg, ?_⟩
      intro q hq
      simp [modeAfter] at hq
    case ok =>
      have hre : do_bgfg c (some a) ⟨t, n⟩ = bgfgProceed c key j ⟨t, n⟩ := by
        simp [do_bgfg, hres]
      rw [hre]
      obtain ⟨hfind, hpos⟩ := bgfgResolve_ok hres
      have hjpid : j.pid ≠ 0 := bgfgTarget_pid_ne hclean hfind hpos
      by_cases hcfg : c = "fg"
      · obtain ⟨l1, l2, hsplit, hl1, hpj, hupd⟩ :=
          findFirst_decomp (keyPred key) (fun x => ⟨x.pid, x.jid, FG, x.cmdline⟩) hfind
        have hproc1 : (bgfgProceed c key j ⟨t, n⟩).1.jobs = l1 ++ ⟨j.pid, j.jid, FG, j.cmdline⟩ :: l2 := by
          simp [bgfgProceed, hcfg, hupd]
        have hproc2 : (bgfgProceed c key j ⟨t, n⟩).2 =
            (if j.state = ST then [Eff.sig (-j.pid) SIGCONT] else []) ++ [Eff.wait j.pid] := by
          simp [bgfgProceed, hcfg]
        have hmode : modeAfter ((bgfgProceed c key j ⟨t, n⟩).2) = .waiting j.pid := by
          rw [hproc2]
          split <;> simp [modeAfter]
        have hz := hfg
        rw [hsplit, fgCount_decomp] at hz
        have hl1z : fgCount l1 = 0 := by omega
        have hl2z : fgCount l2 = 0 := by omega
        rw [hsplit] at hclean
        refine ⟨?_, ?_, ?_, ?_⟩
        · rw [hproc1]
          refine cleanTable_decomp (cleanTable_of_append_left hclean)
            (cleanTable_of_cons (cleanTable_of_append_right hclean)) ?_
          intro hp0
          exact absurd hp0 hjpid
        · rw [hproc1, fgCount_decomp]
          simp [FG]
          omega
        · intro hq
          rw [hmode] at hq
          cases hq
        · intro q hq j2 hj2 hFGj2
          rw [hmode] at hq
          cases hq
          rw [hproc1] at hj2
          rcases List.mem_append.mp hj2 with hj2 | hj2
          · exact absurd hFGj2 (countIf_eq_zero.mp hl1z j2 hj2)
          · rcases List.mem_cons.mp hj2 with hj2 | hj2
            · rw [hj2]
            · exact absurd hFGj2 (countIf_eq_zero.mp hl2z j2 hj2)
      · by_cases hcbg : c = "bg"
        · obtain ⟨l1, l2, hsplit, hl1, hpj, hupd⟩ :=
            findFirst_decomp (keyPred key) (fun x => ⟨x.pid, x.jid, BG, x.cmdline⟩) hfind
          have hproc1 : (bgfgProceed c key j ⟨t, n⟩).1.jobs =
              l1 ++ ⟨j.pid, j.jid, BG, j.cmdline⟩ :: l2 := by
            simp [bgfgProceed, hcfg, hcbg, hupd]
          have hmode : modeAfter ((bgfgProceed c key j ⟨t, n⟩).2) = .ready := by
            by_cases hst : j.state = ST <;>
              simp [bgfgProceed, hcfg, hcbg, hst, modeAfter]
          have hz := hfg
          rw [hsplit, fgCount_decomp] at hz
          rw [hsplit] at hclean
          have hcnt : fgCount ((bgfgProceed c key j ⟨t, n⟩).1.jobs) = 0 := by
            rw [hproc1, fgCount_decomp]
            simp [BG, FG]
            omega
          refine ⟨?_, ?_, fun _ => hcnt, ?_⟩
          · rw [hproc1]
            refine cleanTable_decomp (cleanTable_of_append_left hclean)
              (cleanTable_of_cons (cleanTable_of_append_right hclean)) ?_
            intro hp0
            exact absurd hp0 hjpid
          · omega
          · intro q hq
            rw [hmode] at hq
            cases hq
        · have hproc1 : (bgfgProceed c key j ⟨t, n⟩).1 = ⟨t, n⟩ := by
            simp [bgfgProceed, hcfg, hcbg]
          have hproc2 : (bgfgProceed c key j ⟨t, n⟩).2 =
              (if j.state = ST then [Eff.sig (-j.pid) SIGCONT] else []) := by
            simp [bgfgProceed, hcfg, hcbg]
          have hmode : modeAfter ((bgfgProceed c key j ⟨t, n⟩).2) = .ready := by
            rw [hproc2]
            split <;> simp [modeAfter]
          rw [hproc1]
          refine ⟨hclean, by show fgCount t ≤ 1; omega, fun _ => hfg, ?_⟩
          intro q hq
          rw [hmode] at hq
          cases hq

/-- One reap of `sigchld_handler` keeps the table clean, never increases
the foreground count, and introduces no new foreground slot. -/
theorem sigchld_inv (t : List Job) (n : Int) (e : ChildEvent)
    (r : JobsState × List Eff) (hclean : CleanTable t)
    (h : sigchldStep ⟨t, n⟩ e = some r) :
    CleanTable r.1.jobs ∧ fgCount r.1.jobs ≤ fgCount t ∧
    (∀ j ∈ r.1.jobs, j.state = FG → j ∈ t) := by
  cases e with
  | exited pid =>
      have hr : r.1 = (deletejob ⟨t, n⟩ pid).1 := by
        simp [sigchldStep] at h
        rw [← h]
      rw [hr]
      exact deletejob_inv t n pid hclean
  | signaled pid sig =>
      have hr : r.1 = (deletejob ⟨t, n⟩ pid).1 := by
        simp [sigchldStep] at h
        rw [← h]
      rw [hr]
      exact deletejob_inv t n pid hclean
  | stopped pid sig =>
      rcases hg : getjobpid t pid with _ | j0
      · simp [sigchldStep, hg] at h
      · have hr : r.1.jobs =
            updFirst (pidPred pid) (fun x => ⟨x.pid, x.jid, ST, x.cmdline⟩) t := by
          simp [sigchldStep, hg] at h
          rw [← h]
        have hpid1 : ¬ pid < 1 := by
          intro hlt
          simp [getjobpid, hlt] at hg
        have hfind : findFirst (pidPred pid) t = some j0 := by
          simpa [getjobpid, hpid1] using hg
        obtain ⟨l1, l2, hsplit, hl1, hpj, hupd⟩ :=
          findFirst_decomp (pidPred pid) (fun x => ⟨x.pid, x.jid, ST, x.cmdline⟩) hfind
        rw [hr, hupd]
        have hclean2 := hclean
        rw [hsplit] at hclean2
        refine ⟨?_, ?_, ?_⟩
        · refine cleanTable_decomp (cleanTable_of_append_left hclean2)
            (cleanTable_of_cons (cleanTable_of_append_right hclean2)) ?_
          intro hp0
          simp only [pidPred] at hpj
          simp at hp0
          omega
        · rw [hsplit, fgCount_decomp, fgCount_decomp]
          simp [ST, FG]
        · intro j hj hFGj
          rcases List.mem_append.mp hj with hj | hj
          · rw [hsplit]
            exact List.mem_append.mpr (Or.inl hj)
          · rcases List.mem_cons.mp hj with hj | hj
            · rw [hj] at hFGj
              simp [ST, FG] at hFGj
            · rw [hsplit]
              exact List.mem_append.mpr (Or.inr (List.mem_cons_of_mem j0 hj))

theorem fgCount_cons (a : Job) (rest : List Job) :
    fgCount (a :: rest) = (if a.state = FG then 1 else 0) + fgCount rest := rfl

/-- If every foreground slot carries pid `p` but `fgpid` differs from
`p`, there is no foreground slot at all (this is the situation in which
`waitfg(p)` returns). -/
theorem fgCount_zero_of_waiting :
    ∀ {t : List Job} {p : Int}, (∀ j ∈ t, j.state = FG → j.pid = p) →
      fgpid t ≠ p → fgCount t = 0 := by
  intro t
  induction t with
  | nil => intro p _ _; rfl
  | cons a rest ih =>
      intro p hall hfg
      by_cases ha : a.state = FG
      · exfalso
        apply hfg
        simp only [fgpid, ha, if_true]
        exact hall a (List.mem_cons_self a rest) ha
      · have hstep : fgpid (a :: rest) = fgpid rest := by simp [fgpid, ha]
        rw [hstep] at hfg
        have hz := ih (fun j hj => hall j (List.mem_cons_of_mem a hj)) hfg
        rw [fgCount_cons, hz]
        simp [ha]

/-! ### The machine invariant -/

theorem inv_init : Inv ⟨initState, .ready⟩ := by
  refine ⟨?_, ?_, ?_, ?_⟩
  · decide
  · intro _
    decide
  · intro p hp
    exact absurd hp (by simp)
  · intro j hj hp
    simp [initState, NSLOTS] at hj
    subst hj
    decide

theorem inv_step {s s2 : ShellState} (hinv : Inv s) (hstep : Step s s2) : Inv s2 := by
  obtain ⟨hle, hready, hwait, hclean⟩ := hinv
  cases hstep with
  | launchFG pid cmd h =>
      have hfg0 : fgCount s.st.jobs = 0 := hready h
      obtain ⟨hcl, hcnt, hall⟩ :=
        addjob_inv s.st.jobs s.st.nextjid pid FG cmd hclean hfg0
      refine ⟨?_, ?_, ?_, hcl⟩
      · simpa using hcnt
      · intro hmode
        exact absurd hmode (by simp)
      · intro p hp
        have : pid = p := by
          injection hp
        subst this
        exact hall
  | launchBG pid cmd h =>
      have hfg0 : fgCount s.st.jobs = 0 := hready h
      obtain ⟨hcl, hcnt, hall⟩ :=
        addjob_inv s.st.jobs s.st.nextjid pid BG cmd hclean hfg0
      have hcnt2 : fgCount (addjob s.st pid BG cmd).st.jobs ≤
          (if BG = FG then 1 else 0) := hcnt
      have hz : fgCount (addjob s.st pid BG cmd).st.jobs = 0 := by
        have hh : (if BG = FG then 1 else 0) = 0 := by decide
        omega
      refine ⟨?_, fun _ => hz, ?_, hcl⟩
      · show fgCount (addjob s.st pid BG cmd).st.jobs ≤ 1
        omega
      · intro p hp
        exact absurd hp (by simp)
  | resume c arg h hc =>
      have hfg0 : fgCount s.st.jobs = 0 := hready h
      obtain ⟨hcl, hle2, hrd, hwt⟩ :=
        do_bgfg_inv c arg s.st.jobs s.st.nextjid hclean hfg0
      exact ⟨hle2, hrd, hwt, hcl⟩
  | wake p h hfg =>
      have hz : fgCount s.st.jobs = 0 :=
        fgCount_zero_of_waiting (hwait p h) hfg
      refine ⟨?_, fun _ => hz, ?_, hclean⟩
      · show fgCount s.st.jobs ≤ 1
        omega
      · intro q hq
        exact absurd hq (by simp)
  | reap e r hr =>
      obtain ⟨hcl, hle2, hmem⟩ :=
        sigchld_inv s.st.jobs s.st.nextjid e r hclean hr
      refine ⟨?_, ?_, ?_, hcl⟩
      · show fgCount r.1.jobs ≤ 1
        omega
      · intro hmode
        have h0 := hready hmode
        show fgCount r.1.jobs = 0
        omega
      · intro q hq j hj hFGj
        exact hwait q hq j (hmem j hj hFGj) hFGj

theorem inv_of_reachable {s : ShellState} (h : Reachable s) : Inv s := by
  induction h with
  | init => exact inv_init
  | step _ hstep ih => exact inv_step ih hstep

/-- Claim C1: at every reachable state of the shell — under all
interleavings of launches, `fg`/`bg` resumes, `waitfg` wakeups and
child-state-change reaps — at most one slot of the job table is in state
`FG`. -/
theorem claim_C1 (s : ShellState) (h : Reachable s) : fgCount s.st.jobs ≤ 1 :=
  (inv_of_reachable h).1

/-- Witness for C1 at the initial state. -/
theorem claim_C1_witness : fgCount (⟨initState, Mode.ready⟩ : ShellState).st.jobs ≤ 1 :=
  claim_C1 ⟨initState, Mode.ready⟩ Reachable.init

/-- Claim C9: the interactive-interrupt and interactive-suspend handlers
leave the job table (every slot, and the counter) unchanged; when a
foreground job exists they send exactly one signal to its process group
(negative-pid target), and when none exists they do nothing at all. -/
theorem claim_C9 (s : JobsState) :
    (sigint_handler s).1 = s ∧ (sigtstp_handler s).1 = s ∧
    (fgpid s.jobs ≠ 0 →
      (sigint_handler s).2 = [.sig (-(fgpid s.jobs)) SIGINT] ∧
      (sigtstp_handler s).2 = [.sig (-(fgpid s.jobs)) SIGTSTP]) ∧
    (fgpid s.jobs = 0 → (sigint_handler s).2 = [] ∧ (sigtstp_handler s).2 = []) := by
  by_cases h : fgpid s.jobs = 0 <;>
    simp [sigint_handler, sigtstp_handler, h]

/-- Witness for C9 on a table with a foreground job. -/
theorem claim_C9_witness :
    (sigint_handler exFG).2 = [.sig (-(fgpid exFG.jobs)) SIGINT] ∧
    (sigtstp_handler exFG).2 = [.sig (-(fgpid exFG.jobs)) SIGTSTP] :=
  (claim_C9 exFG).2.2.1 (by decide)

/-- Claim C5: on a full table (all slots live) `addjob` fails for every
pid, leaves every slot and the job-id counter unchanged, and — for the
positive pids that reach the scan — reports the failure with the
non-fatal `printf` diagnostic rather than a crash. -/
theorem claim_C5 (s : JobsState) (p stv : Int) (c : String)
    (hfull : ∀ j ∈ s.jobs, j.pid ≠ 0) :
    (addjob s p stv c).st = s ∧ (addjob s p stv c).ok = false ∧
    (1 ≤ p → (addjob s p stv c).out = ["Tried to create too many jobs\n"]) := by
  obtain ⟨t, n⟩ := s
  have hnone : findFirst (pidPred 0) t = none :=
    findFirst_none_iff.mpr (fun x hx => hfull x hx)
  by_cases hp : p < 1
  · refine ⟨by simp [addjob, hp], by simp [addjob, hp], ?_⟩
    intro hq
    omega
  · refine ⟨?_, ?_, fun _ => ?_⟩ <;> simp [addjob, hp, hnone]

/-- Witness for C5: the 17th add on the filled-up table. -/
theorem claim_C5_witness :
    (addjob exFull 99 BG "w\n").st = exFull ∧ (addjob exFull 99 BG "w\n").ok = false ∧
    (1 ≤ (99 : Int) → (addjob exFull 99 BG "w\n").out = ["Tried to create too many jobs\n"]) :=
  claim_C5 exFull 99 BG "w\n" (by decide)

/-- On a clean table, ignoring the logically-empty slots (pid 0, hence
jid 0) does not change the running maximum of `maxjid`. -/
theorem maxjid_filter_aux :
    ∀ {t : List Job}, CleanTable t → ∀ {m : Int}, 0 ≤ m →
      maxjidFrom m (t.filter (fun j => j.pid != 0)) = maxjidFrom m t := by
  intro t
  induction t with
  | nil => intro _ m _; rfl
  | cons a rest ih =>
      intro hclean m hm
      by_cases hpa : a.pid = 0
      · have hjid : a.jid = 0 := (hclean a (List.mem_cons_self a rest) hpa).1
        have hfa : (a.pid != 0) = false := by simp [hpa]
        have hite : (if a.jid > m then a.jid else m) = m := by
          rw [hjid]
          split <;> omega
        show maxjidFrom m ((a :: rest).filter (fun j => j.pid != 0)) =
          maxjidFrom (if a.jid > m then a.jid else m) rest
        rw [List.filter_cons_of_neg (by simp [hfa]), hite]
        exact ih (cleanTable_of_cons hclean) hm
      · have hfa : (a.pid != 0) = true := by simp [hpa]
        show maxjidFrom m ((a :: rest).filter (fun j => j.pid != 0)) =
          maxjidFrom (if a.jid > m then a.jid else m) rest
        rw [List.filter_cons_of_pos (by simp [hfa])]
        show maxjidFrom (if a.jid > m then a.jid else m) (rest.filter _) = _
        refine ih (cleanTable_of_cons hclean) ?_
        split <;> omega

/-- Claim C10: `initjobs` establishes and `addjob`/`deletejob` preserve
the invariant that a slot with pid 0 is fully cleared (jid 0, state
`UNDEF`, empty command); consequently `getjobjid` and `getjobpid` never
return a logically-empty slot and `maxjid` is unaffected by the empty
slots. -/
theorem claim_C10 :
    CleanTable initState.jobs ∧
    (∀ (s : JobsState) (p stv : Int) (c : String), CleanTable s.jobs →
        CleanTable (addjob s p stv c).st.jobs) ∧
    (∀ (s : JobsState) (p : Int), CleanTable s.jobs →
        CleanTable (deletejob s p).1.jobs) ∧
    (∀ (t : List Job) (v : Int) (j : Job), CleanTable t →
        getjobjid t v = some j → j.pid ≠ 0) ∧
    (∀ (t : List Job) (v : Int) (j : Job), getjobpid t v = some j → j.pid ≠ 0) ∧
    (∀ t : List Job, CleanTable t →
        maxjid (t.filter (fun j => j.pid != 0)) = maxjid t) := by
  refine ⟨?_, ?_, ?_, ?_, ?_, ?_⟩
  · decide
  · intro s p stv c hclean
    obtain ⟨t, n⟩ := s
    rcases addjob_cases t n p stv c with ⟨heq, _⟩ |
      ⟨hp, l1, j0, l2, hsplit, hpid0, _, hjobs, _, _⟩
    · rw [heq]
      exact hclean
    · rw [hjobs]
      subst hsplit
      refine cleanTable_decomp (cleanTable_of_append_left hclean)
        (cleanTable_of_cons (cleanTable_of_append_right hclean)) ?_
      intro hp0
      simp at hp0
      omega
  · intro s p hclean
    obtain ⟨t, n⟩ := s
    exact (deletejob_inv t n p hclean).1
  · intro t v j hclean hg
    obtain ⟨hf, hv⟩ := getjobjid_inv hg
    have hpred : j.jid = v := findFirst_pred hf
    intro hp0
    have := (hclean j (findFirst_mem hf) hp0).1
    omega
  · intro t v j hg
    obtain ⟨hf, hv⟩ := getjobpid_inv hg
    have hpred : j.pid = v := findFirst_pred hf
    omega
  · intro t hclean
    exact maxjid_filter_aux hclean (by omega)

/-- Witness for C10 applied to a concrete clean table: adding then
deleting preserves cleanliness, the lookups return live slots, and
`maxjid` ignores empty slots. -/
theorem claim_C10_witness :
    CleanTable (addjob exStop 8 BG "z\n").st.jobs ∧
    CleanTable (deletejob exStop 5).1.jobs ∧
    maxjid (exStop.jobs.filter (fun j => j.pid != 0)) = maxjid exStop.jobs :=
  ⟨claim_C10.2.1 exStop 8 BG "z\n" (by decide),
   claim_C10.2.2.1 exStop 5 (by decide),
   claim_C10.2.2.2.2.2 exStop.jobs (by decide)⟩

theorem countIf_cons (p : Job → Prop) [DecidablePred p] (a : Job) (l : List Job) :
    countIf p (a :: l) = (if p a then 1 else 0) + countIf p l := rfl

/-- `findFirst` skips a prefix of non-matching slots. -/
theorem findFirst_append_skip {p : Job → Prop} [DecidablePred p] :
    ∀ {l1 : List Job}, (∀ x ∈ l1, ¬ p x) → ∀ l2 : List Job,
      findFirst p (l1 ++ l2) = findFirst p l2 := by
  intro l1
  induction l1 with
  | nil => intro _ l2; rfl
  | cons a rest ih =>
      intro h l2
      have ha : ¬ p a := h a (List.mem_cons_self a rest)
      show (if p a then some a else findFirst p (rest ++ l2)) = findFirst p l2
      rw [if_neg ha]
      exact ih (fun x hx => h x (List.mem_cons_of_mem a hx)) l2

/-- A fresh `addjob` never duplicates a live pid. -/
theorem pidsUnique_addjob {s : JobsState} {p stv : Int} {c : String}
    (hu : pidsUnique s.jobs) (hfresh : getjobpid s.jobs p = none) :
    pidsUnique (addjob s p stv c).st.jobs := by
  obtain ⟨t, n⟩ := s
  rcases addjob_cases t n p stv c with ⟨heq, _⟩ |
    ⟨hp, l1, j0, l2, hsplit, hpid0, _, hjobs, _, _⟩
  · rw [heq]
    exact hu
  · rw [hjobs]
    intro q hq
    have horig := hu q hq
    rw [hsplit, countIf_append, countIf_cons] at horig
    rw [countIf_append, countIf_cons]
    have hnone : ∀ x ∈ t, x.pid ≠ p := by
      intro x hx
      unfold getjobpid at hfresh
      rw [if_neg (by omega)] at hfresh
      exact findFirst_none_iff.mp hfresh x hx
    by_cases hpq : p = q
    · subst hpq
      have hz1 : countIf (fun j => j.pid = p) l1 = 0 :=
        countIf_eq_zero.mpr (fun x hx =>
          hnone x (hsplit ▸ List.mem_append.mpr (Or.inl hx)))
      have hz2 : countIf (fun j => j.pid = p) l2 = 0 :=
        countIf_eq_zero.mpr (fun x hx =>
          hnone x (hsplit ▸ List.mem_append.mpr (Or.inr (List.mem_cons_of_mem j0 hx))))
      rw [hz1, hz2]
      simp
    · have hnew : ((⟨p, n, stv, c⟩ : Job) : Job).pid ≠ q := fun h => hpq h
      rw [if_neg hnew]
      omega

/-- `deletejob` never duplicates a live pid. -/
theorem pidsUnique_deletejob {s : JobsState} {p : Int} (hu : pidsUnique s.jobs) :
    pidsUnique (deletejob s p).1.jobs := by
  obtain ⟨t, n⟩ := s
  rcases deletejob_cases t n p with ⟨heq, _⟩ |
    ⟨hp, l1, j0, l2, hsplit, hpid0, _, hjobs, _, _⟩
  · rw [heq]
    exact hu
  · rw [hjobs]
    intro q hq
    have horig := hu q hq
    rw [hsplit, countIf_append, countIf_cons] at horig
    rw [countIf_append, countIf_cons]
    have hclear : clearedJob.pid ≠ q := fun h => hq h.symm
    rw [if_neg hclear]
    omega

theorem pidsUnique_init : pidsUnique initState.jobs := by
  intro q hq
  have hz : countIf (fun j => j.pid = q) initState.jobs = 0 := by
    apply countIf_eq_zero.mpr
    intro x hx
    simp [initState, NSLOTS] at hx
    subst hx
    intro h
    exact hq (by simpa [clearedJob] using h.symm)
  omega

theorem pidsUnique_ops :
    ∀ (ops : List TableOp) (s : JobsState), pidsUnique s.jobs →
      freshSeq s ops = true → pidsUnique (applyOps s ops).jobs := by
  intro ops
  induction ops with
  | nil => intro s hu _; exact hu
  | cons op rest ih =>
      intro s hu hf
      cases op with
      | add p stv c =>
          rw [freshSeq, Bool.and_eq_true] at hf
          refine ih _ (pidsUnique_addjob hu ?_) hf.2
          exact Option.isNone_iff_eq_none.mp hf.1
      | del p =>
          rw [freshSeq] at hf
          exact ih _ (pidsUnique_deletejob hu) hf

/-- Counterexample to C2 as stated: first, two `addjob` calls with the
same pid leave two live slots with pid 1 (`addjob` has no duplicate
check); second, even with all-fresh pids, after `cexC2jidOps` the
wrapped-around counter assigns jid 1 to a 16th job while the original
jid-1 job is still live, leaving two live slots with jid 1. -/
theorem claim_C2_counterexample :
    countIf (fun j => j.pid = 1) (applyOps initState cexC2pidOps).jobs = 2 ∧
    freshSeq initState cexC2jidOps = true ∧
    countIf (fun j => j.pid ≠ 0 ∧ j.jid = 1) (applyOps initState cexC2jidOps).jobs = 2 := by
  refine ⟨by decide, by decide, by decide⟩

/-- Claim C2 (amended): for every sequence of `addjob`/`deletejob`
operations from the initialized table in which every added pid is not
currently live (as the pids returned by `fork` are), no two live slots
ever share a pid.  Uniqueness of `job_id` does not hold even then — see
the counterexample — because the capacity-bounded wraparound of
`nextjid` can reassign a still-live jid. -/
theorem claim_C2 (ops : List TableOp) (h : freshSeq initState ops = true) :
    pidsUnique (applyOps initState ops).jobs :=
  pidsUnique_ops ops initState pidsUnique_init h

/-- Witness for C2 on a concrete fresh sequence. -/
theorem claim_C2_witness :
    countIf (fun j => j.pid = 2) (applyOps initState exC2wOps).jobs ≤ 1 :=
  claim_C2 exC2wOps (by decide) 2 (by decide)

/-- Counterexample to C4 as stated: in the reachable table `cexC4` the
live jids are {1, 5}; pid 5 holds the maximum jid 5; after deleting it
the counter is rebased to `maxjid + 1 = 2`, so the next add assigns
jid 2 — not the previous maximum 5. -/
theorem claim_C4_counterexample :
    maxjid cexC4.jobs = 5 ∧
    getjobpid cexC4.jobs 5 = some ⟨5, 5, BG, ""⟩ ∧
    (deletejob cexC4 5).2 = true ∧
    pid2jid (addjob (deletejob cexC4 5).1 9 BG "").st.jobs 9 = 2 ∧
    (2 : Int) ≠ 5 := by
  refine ⟨by decide, by decide, by decide, by decide, by decide⟩

/-- On a table of the shape `m1 ++ nj :: m2` where no slot of `m1` has
pid `q` and `nj` has pid `q`, the jid reported by `pid2jid` for `q` is
`nj.jid`. -/
theorem pid2jid_filled {q : Int} (hq : 1 ≤ q) {m1 m2 : List Job} {nj : Job}
    (hm1 : ∀ x ∈ m1, x.pid ≠ q) (hnj : nj.pid = q) :
    pid2jid (m1 ++ nj :: m2) q = nj.jid := by
  unfold pid2jid
  rw [if_neg (by omega)]
  rw [findFirst_append_skip (p := pidPred q) (fun x hx hpx => hm1 x hx hpx) (nj :: m2)]
  simp only [findFirst]
  rw [if_pos (show pidPred q nj from hnj)]

/-- Claim C4 (amended): after removing the job that (uniquely) holds the
current maximum `job_id`, the counter is rebased to `(max remaining live
job_id) + 1`, so the next assigned id equals that value; it is never
higher than the previous maximum, but need not equal it. -/
theorem claim_C4 (s : JobsState) (p q stv : Int) (c : String) (j : Job)
    (hj : getjobpid s.jobs p = some j)
    (hmax : j.jid = maxjid s.jobs)
    (hpos : 1 ≤ maxjid s.jobs)
    (huniq : countIf (fun x => x.jid = maxjid s.jobs) s.jobs ≤ 1)
    (hq : 1 ≤ q)
    (hfresh : getjobpid (deletejob s p).1.jobs q = none) :
    (deletejob s p).2 = true ∧
    (deletejob s p).1.nextjid = maxjid (deletejob s p).1.jobs + 1 ∧
    maxjid (deletejob s p).1.jobs + 1 ≤ maxjid s.jobs ∧
    (addjob (deletejob s p).1 q stv c).ok = true ∧
    pid2jid (addjob (deletejob s p).1 q stv c).st.jobs q = (deletejob s p).1.nextjid := by
  set M := maxjid s.jobs with hM
  obtain ⟨hfind, hp⟩ := getjobpid_inv hj
  obtain ⟨l1, l2, hsplit, hl1, hpj, hupd⟩ :=
    findFirst_decomp (pidPred p) (fun _ => clearedJob) hfind
  have hdel : deletejob s p =
      (⟨l1 ++ clearedJob :: l2, maxjid (l1 ++ clearedJob :: l2) + 1⟩, true) := by
    simp [deletejob, show ¬ p < 1 by omega, hfind, hupd]
  have hMdef : maxjidFrom 0 s.jobs = M := hM.symm
  have hMle : maxjid (l1 ++ clearedJob :: l2) ≤ M - 1 := by
    have hcnt := huniq
    rw [hsplit, countIf_append, countIf_cons] at hcnt
    have hcnt2 : countIf (fun x => x.jid = M) l1 +
        ((if j.jid = M then 1 else 0) + countIf (fun x => x.jid = M) l2) ≤ 1 := hcnt
    rw [if_pos hmax] at hcnt2
    have hne1 : ∀ x ∈ l1, x.jid ≠ M := countIf_eq_zero.mp (by omega)
    have hne2 : ∀ x ∈ l2, x.jid ≠ M := countIf_eq_zero.mp (by omega)
    show maxjidFrom 0 (l1 ++ clearedJob :: l2) ≤ M - 1
    refine maxjidFrom_le ?_ (by omega)
    intro x hx
    rcases List.mem_append.mp hx with hx | hx
    · have hle := jid_le_maxjidFrom (hsplit ▸ List.mem_append.mpr (Or.inl hx)) (0 : Int)
      rw [hMdef] at hle
      have hne := hne1 x hx
      omega
    · rcases List.mem_cons.mp hx with hx | hx
      · have hcj : x.jid = 0 := by rw [hx]; rfl
        omega
      · have hle := jid_le_maxjidFrom
          (hsplit ▸ List.mem_append.mpr (Or.inr (List.mem_cons_of_mem j hx))) (0 : Int)
        rw [hMdef] at hle
        have hne := hne2 x hx
        omega
  have hfresh2 : ∀ x ∈ l1 ++ clearedJob :: l2, x.pid ≠ q := by
    intro x hx
    rw [hdel] at hfresh
    have hfr2 : getjobpid (l1 ++ clearedJob :: l2) q = none := hfresh
    unfold getjobpid at hfr2
    rw [if_neg (by omega)] at hfr2
    exact findFirst_none_iff.mp hfr2 x hx
  rcases hf2 : findFirst (pidPred 0) (l1 ++ clearedJob :: l2) with _ | j2
  · exfalso
    have := findFirst_none_iff.mp hf2 clearedJob
      (List.mem_append.mpr (Or.inr (List.mem_cons_self clearedJob l2)))
    exact this rfl
  · obtain ⟨m1, m2, hsplit2, hm1, hpj2, hupd2⟩ :=
      findFirst_decomp (pidPred 0)
        (fun _ => (⟨q, maxjid (l1 ++ clearedJob :: l2) + 1, stv, c⟩ : Job)) hf2
    have hadd : addjob ⟨l1 ++ clearedJob :: l2, maxjid (l1 ++ clearedJob :: l2) + 1⟩ q stv c =
        ⟨⟨m1 ++ (⟨q, maxjid (l1 ++ clearedJob :: l2) + 1, stv, c⟩ : Job) :: m2,
          if maxjid (l1 ++ clearedJob :: l2) + 1 + 1 > MAXJOBS then 1
          else maxjid (l1 ++ clearedJob :: l2) + 1 + 1⟩, true, []⟩ := by
      simp [addjob, show ¬ q < 1 by omega, hf2, hupd2]
    rw [hdel, hadd]
    refine ⟨rfl, rfl, ?_, rfl, ?_⟩
    · show maxjid (l1 ++ clearedJob :: l2) + 1 ≤ M
      omega
    · show pid2jid (m1 ++ (⟨q, maxjid (l1 ++ clearedJob :: l2) + 1, stv, c⟩ : Job) :: m2) q =
        maxjid (l1 ++ clearedJob :: l2) + 1
      rw [pid2jid_filled hq
        (fun x hx => hfresh2 x (hsplit2 ▸ List.mem_append.mpr (Or.inl hx))) rfl]

/-- Witness for C4 (amended) on the concrete table with live jids
{1, 5}. -/
theorem claim_C4_witness :
    (deletejob cexC4 5).2 = true ∧
    (deletejob cexC4 5).1.nextjid = maxjid (deletejob cexC4 5).1.jobs + 1 ∧
    maxjid (deletejob cexC4 5).1.jobs + 1 ≤ maxjid cexC4.jobs ∧
    (addjob (deletejob cexC4 5).1 9 BG "").ok = true ∧
    pid2jid (addjob (deletejob cexC4 5).1 9 BG "").st.jobs 9 = (deletejob cexC4 5).1.nextjid :=
  claim_C4 cexC4 5 9 BG "" ⟨5, 5, BG, ""⟩ (by decide) (by decide) (by decide)
    (by decide) (by decide) (by decide)

/-- Counterexample to C3 as stated: a tracked child (pid 42, jid 1)
terminated by SIGKILL (signal 9) makes the handler print a line whose
signal description is the hard-coded literal `SIGINT`; the name of the
actual signal, `KILL`, occurs nowhere in the output (and the job is
removed). -/
theorem claim_C3_counterexample :
    signame 9 = "KILL" ∧
    effOutput ((sigchldStep cexC3 (.signaled 42 9)).getD (cexC3, [])).2 =
      "Job [1] (42) terminated by signal SIGINT\n" ∧
    containsSub (signame 9).toList
      (effOutput ((sigchldStep cexC3 (.signaled 42 9)).getD (cexC3, [])).2).toList = false ∧
    getjobpid ((sigchldStep cexC3 (.signaled 42 9)).getD (cexC3, [])).1.jobs 42 = none := by
  refine ⟨by decide, by decide, by decide, by decide⟩

/-- Claim C3 (amended): for every tracked child terminated by an uncaught
fatal signal, the handler emits — via the reentrant-safe `sio` calls — a
line identifying the job id and process id but always labelling the
terminating signal as `SIGINT`, whatever `sig` actually was, and then
removes the job from the table. -/
theorem claim_C3 (s : JobsState) (p : Int) (sig : Nat) (j : Job)
    (hj : getjobpid s.jobs p = some j)
    (huniq : countIf (fun x => x.pid = p) s.jobs ≤ 1) :
    sigchldStep s (.signaled p sig) =
      some ((deletejob s p).1,
        [.print "Job [", .print (toString (pid2jid s.jobs p)), .print "] (",
         .print (toString p), .print ") terminated by signal SIGINT", .print "\n"]) ∧
    pid2jid s.jobs p = j.jid ∧
    (deletejob s p).2 = true ∧
    getjobpid (deletejob s p).1.jobs p = none := by
  obtain ⟨hfind, hp⟩ := getjobpid_inv hj
  obtain ⟨l1, l2, hsplit, hl1, hpj, hupd⟩ :=
    findFirst_decomp (pidPred p) (fun _ => clearedJob) hfind
  have hz12 : countIf (fun x => x.pid = p) l1 = 0 ∧ countIf (fun x => x.pid = p) l2 = 0 := by
    have hcnt := huniq
    rw [hsplit, countIf_append, countIf_cons] at hcnt
    have hcnt2 : countIf (fun x => x.pid = p) l1 +
        ((if j.pid = p then 1 else 0) + countIf (fun x => x.pid = p) l2) ≤ 1 := hcnt
    rw [if_pos (show j.pid = p from hpj)] at hcnt2
    constructor <;> omega
  refine ⟨rfl, ?_, ?_, ?_⟩
  · unfold pid2jid
    rw [if_neg (by omega), hfind]
  · simp [deletejob, show ¬ p < 1 by omega, hfind]
  · have hjobs : (deletejob s p).1.jobs = l1 ++ clearedJob :: l2 := by
      simp [deletejob, show ¬ p < 1 by omega, hfind, hupd]
    rw [hjobs]
    unfold getjobpid
    rw [if_neg (by omega)]
    apply findFirst_none_iff.mpr
    intro x hx
    rcases List.mem_append.mp hx with hx | hx
    · exact countIf_eq_zero.mp hz12.1 x hx
    · rcases List.mem_cons.mp hx with hx | hx
      · intro hpx
        rw [hx] at hpx
        have : (0 : Int) = p := hpx
        omega
      · exact countIf_eq_zero.mp hz12.2 x hx

/-- Witness for C3 (amended) with pid 42 terminated by SIGKILL. -/
theorem claim_C3_witness :
    sigchldStep cexC3 (.signaled 42 9) =
      some ((deletejob cexC3 42).1,
        [.print "Job [", .print (toString (pid2jid cexC3.jobs 42)), .print "] (",
         .print (toString (42 : Int)), .print ") terminated by signal SIGINT", .print "\n"]) ∧
    pid2jid cexC3.jobs 42 = (⟨42, 1, BG, "mycmd\n"⟩ : Job).jid ∧
    (deletejob cexC3 42).2 = true ∧
    getjobpid (deletejob cexC3 42).1.jobs 42 = none :=
  claim_C3 cexC3 42 9 ⟨42, 1, BG, "mycmd\n"⟩ (by decide) (by decide)

/-- Claim C7: executing the `bg` built-in on a Stopped job (however the
argument resolved it — by pid or by `%jid`) first sends `SIGCONT` to the
job's process group (`-pid`), then sets its state to `BG`, and prints
the `[jid] (pid) cmdline` acknowledgement; the trace contains no
`waitfg` call, so the control loop does not block. -/
theorem claim_C7 (s : JobsState) (a : String) (key : BgfgKey) (j : Job)
    (hres : bgfgResolve "bg" a s.jobs = .ok key j) (hst : j.state = ST) :
    do_bgfg "bg" (some a) s =
      (⟨updFirst (keyPred key) (fun x => ⟨x.pid, x.jid, BG, x.cmdline⟩) s.jobs, s.nextjid⟩,
       [.sig (-j.pid) SIGCONT,
        .print ("[" ++ toString (pid2jid (updFirst (keyPred key)
            (fun x => ⟨x.pid, x.jid, BG, x.cmdline⟩) s.jobs) j.pid) ++ "] (" ++
          toString j.pid ++ ") " ++ j.cmdline)]) ∧
    findFirst (keyPred key) (updFirst (keyPred key)
        (fun x => ⟨x.pid, x.jid, BG, x.cmdline⟩) s.jobs) =
      some ⟨j.pid, j.jid, BG, j.cmdline⟩ ∧
    (∀ q, Eff.wait q ∉ (do_bgfg "bg" (some a) s).2) := by
  obtain ⟨hfind, hpos⟩ := bgfgResolve_ok hres
  have hne : ("bg" : String) ≠ "fg" := by decide
  have h1 : do_bgfg "bg" (some a) s =
      (⟨updFirst (keyPred key) (fun x => ⟨x.pid, x.jid, BG, x.cmdline⟩) s.jobs, s.nextjid⟩,
       [.sig (-j.pid) SIGCONT,
        .print ("[" ++ toString (pid2jid (updFirst (keyPred key)
            (fun x => ⟨x.pid, x.jid, BG, x.cmdline⟩) s.jobs) j.pid) ++ "] (" ++
          toString j.pid ++ ") " ++ j.cmdline)]) := by
    simp [do_bgfg, hres, bgfgProceed, hst, hne]
  refine ⟨h1, ?_, ?_⟩
  · obtain ⟨l1, l2, hsplit, hl1, hpj, hupd⟩ :=
      findFirst_decomp (keyPred key) (fun x => ⟨x.pid, x.jid, BG, x.cmdline⟩) hfind
    have hpredBG : keyPred key (⟨j.pid, j.jid, BG, j.cmdline⟩ : Job) := by
      cases key with
      | byJid v => exact hpj
      | byPid v => exact hpj
    rw [hupd, findFirst_append_skip hl1 _]
    simp only [findFirst]
    rw [if_pos hpredBG]
  · intro q
    rw [h1]
    simp

/-- Witness for C7: `bg %1` on the stopped job (pid 5, jid 1). -/
theorem claim_C7_witness :
    do_bgfg "bg" (some "%1") exStop =
      (⟨updFirst (keyPred (.byJid 1)) (fun x => ⟨x.pid, x.jid, BG, x.cmdline⟩) exStop.jobs,
        exStop.nextjid⟩,
       [.sig (-5) SIGCONT,
        .print ("[" ++ toString (pid2jid (updFirst (keyPred (.byJid 1))
            (fun x => ⟨x.pid, x.jid, BG, x.cmdline⟩) exStop.jobs) 5) ++ "] (" ++
          toString (5 : Int) ++ ") " ++ "sleep 2\n")]) ∧
    findFirst (keyPred (.byJid 1)) (updFirst (keyPred (.byJid 1))
        (fun x => ⟨x.pid, x.jid, BG, x.cmdline⟩) exStop.jobs) =
      some ⟨5, 1, BG, "sleep 2\n"⟩ ∧
    (∀ q, Eff.wait q ∉ (do_bgfg "bg" (some "%1") exStop).2) :=
  claim_C7 exStop "%1" (.byJid 1) ⟨5, 1, ST, "sleep 2\n"⟩ (by decide) (by decide)

theorem data_append (a b : String) : (a ++ b).data = a.data ++ b.data := by
  obtain ⟨ad⟩ := a
  obtain ⟨bd⟩ := b
  rfl

/-- The penultimate character of `x ++ suf` depends only on `suf` when
`suf` has at least two characters. -/
theorem penult_append (x suf : String) (h : 1 < suf.data.reverse.length) :
    penult (x ++ suf) = penult suf := by
  unfold penult
  rw [data_append, List.reverse_append, List.getElem?_append_left h]

theorem ne_of_penult {s1 s2 : String} (h : penult s1 ≠ penult s2) : s1 ≠ s2 :=
  fun he => h (congrArg penult he)

theorem penult_msgMissing (cmd : String) : penult (msgMissing cmd) = some 't' := by
  unfold msgMissing
  rw [penult_append _ _ (by decide)]
  decide

theorem penult_msgMalformed (cmd : String) : penult (msgMalformed cmd) = some 'd' := by
  unfold msgMalformed
  rw [penult_append _ _ (by decide)]
  decide

theorem penult_msgNoJob (a : String) : penult (msgNoJob a) = some 'b' := by
  unfold msgNoJob
  rw [penult_append _ _ (by decide)]
  decide

theorem penult_msgNoProc (a : String) : penult (msgNoProc a) = some 's' := by
  unfold msgNoProc
  rw [penult_append _ _ (by decide)]
  decide

/-- Claim C8: `do_bgfg` reports a distinct user-facing error message for
each failure case — (a) missing target argument, (b) malformed target
token (a `%` not followed by a digit, or a token with `atoi` value 0),
(c) target job/process not found — and returns with the table (and the
counter) unchanged; the four message shapes are pairwise distinct for
all commands and argument strings. -/
theorem claim_C8 (cmd a : String) (s : JobsState) :
    (do_bgfg cmd none s = (s, [.print (msgMissing cmd)])) ∧
    (charAt a.toList 0 = '%' → ¬ (charAt a.toList 1).isDigit →
      do_bgfg cmd (some a) s = (s, [.print (msgMalformed cmd)])) ∧
    (charAt a.toList 0 ≠ '%' → atoi a.toList = 0 →
      do_bgfg cmd (some a) s = (s, [.print (msgMalformed cmd)])) ∧
    (charAt a.toList 0 = '%' → (charAt a.toList 1).isDigit →
      getjobjid s.jobs (atoi (a.toList.drop 1)) = none →
      do_bgfg cmd (some a) s = (s, [.print (msgNoJob a)])) ∧
    (charAt a.toList 0 ≠ '%' → atoi a.toList ≠ 0 →
      getjobpid s.jobs (atoi a.toList) = none →
      do_bgfg cmd (some a) s = (s, [.print (msgNoProc a)])) ∧
    msgMissing cmd ≠ msgMalformed cmd ∧
    msgMissing cmd ≠ msgNoJob a ∧ msgMissing cmd ≠ msgNoProc a ∧
    msgMalformed cmd ≠ msgNoJob a ∧ msgMalformed cmd ≠ msgNoProc a ∧
    msgNoJob a ≠ msgNoProc a := by
  refine ⟨rfl, ?_, ?_, ?_, ?_, ?_, ?_, ?_, ?_, ?_, ?_⟩
  · intro h1 h2
    have h1a : charAt a.data 0 = '%' := h1
    have h2a : ¬ (charAt a.data 1).isDigit = true := h2
    simp [do_bgfg, bgfgResolve, h1a, h2a]
  · intro h1 h2
    have h1a : ¬ charAt a.data 0 = '%' := h1
    have h2a : atoi a.data = 0 := h2
    simp [do_bgfg, bgfgResolve, h1a, h2a]
  · intro h1 h2 h3
    rw [List.drop_one] at h3
    have h1a : charAt a.data 0 = '%' := h1
    have h2a : (charAt a.data 1).isDigit = true := h2
    have h3a : getjobjid s.jobs (atoi a.data.tail) = none := h3
    simp [do_bgfg, bgfgResolve, h1a, h2a, h3a]
  · intro h1 h2 h3
    have h1a : ¬ charAt a.data 0 = '%' := h1
    have h2a : ¬ atoi a.data = 0 := h2
    have h3a : getjobpid s.jobs (atoi a.data) = none := h3
    simp [do_bgfg, bgfgResolve, h1a, h2a, h3a]
  · exact ne_of_penult (by rw [penult_msgMissing, penult_msgMalformed]; decide)
  · exact ne_of_penult (by rw [penult_msgMissing, penult_msgNoJob]; decide)
  · exact ne_of_penult (by rw [penult_msgMissing, penult_msgNoProc]; decide)
  · exact ne_of_penult (by rw [penult_msgMalformed, penult_msgNoJob]; decide)
  · exact ne_of_penult (by rw [penult_msgMalformed, penult_msgNoProc]; decide)
  · exact ne_of_penult (by rw [penult_msgNoJob, penult_msgNoProc]; decide)

/-- Witness for C8: the three error classes on concrete inputs (`fg`
with no argument, `fg %x`, `fg %3` on a table without jid 3), plus the
distinctness of the messages. -/
theorem claim_C8_witness :
    do_bgfg "fg" none exStop = (exStop, [.print (msgMissing "fg")]) ∧
    do_bgfg "fg" (some "%x") exStop = (exStop, [.print (msgMalformed "fg")]) ∧
    do_bgfg "fg" (some "%3") exStop = (exStop, [.print (msgNoJob "%3")]) ∧
    msgMissing "fg" ≠ msgMalformed "fg" ∧ msgMalformed "fg" ≠ msgNoJob "%3" :=
  ⟨(claim_C8 "fg" "%x" exStop).1,
   (claim_C8 "fg" "%x" exStop).2.1 (by decide) (by decide),
   (claim_C8 "fg" "%3" exStop).2.2.2.1 (by decide) (by decide) (by decide),
   (claim_C8 "fg" "%x" exStop).2.2.2.2.2.1,
   (claim_C8 "fg" "%3" exStop).2.2.2.2.2.2.2.2.1⟩

/-- Per-slot effect of `updFirst`: every slot is unchanged except the
first matching one, which is replaced by its image under `f`. -/
theorem slot_updFirst (p : Job → Prop) [DecidablePred p] (f : Job → Job)
    (t : List Job) (i : Nat) :
    (updFirst p f t)[i]? = t[i]? ∨
    ∃ j, t[i]? = some j ∧ p j ∧ (updFirst p f t)[i]? = some (f j) := by
  rcases hf : findFirst p t with _ | j
  · left
    rw [updFirst_of_none f hf]
  · obtain ⟨l1, l2, hsplit, hl1, hpj, hupd⟩ := findFirst_decomp p f hf
    rw [hupd, hsplit]
    rcases slot_of_decomp l1 l2 j (f j) i with h | ⟨h1, h2⟩
    · left
      exact h
    · right
      exact ⟨j, h1, hpj, h2⟩

/-- Per-slot effect of `addjob`: every slot is unchanged except possibly
the first empty one, which receives the new job. -/
theorem slot_addjob (s : JobsState) (p stv : Int) (c : String) (i : Nat) :
    ((addjob s p stv c).st.jobs)[i]? = s.jobs[i]? ∨
    ∃ j0, s.jobs[i]? = some j0 ∧ j0.pid = 0 ∧
      ((addjob s p stv c).st.jobs)[i]? = some ⟨p, s.nextjid, stv, c⟩ := by
  obtain ⟨t, n⟩ := s
  rcases addjob_cases t n p stv c with ⟨heq, _⟩ |
    ⟨hp, l1, j0, l2, hsplit, hpid0, _, hjobs, _, _⟩
  · left
    rw [heq]
  · rw [hjobs, hsplit]
    rcases slot_of_decomp l1 l2 j0 (⟨p, n, stv, c⟩ : Job) i with h | ⟨h1, h2⟩
    · left
      exact h
    · right
      exact ⟨j0, h1, hpid0, h2⟩

/-- Per-slot effect of `deletejob`: every slot is unchanged except
possibly the removed one, which is cleared. -/
theorem slot_deletejob (s : JobsState) (p : Int) (i : Nat) :
    ((deletejob s p).1.jobs)[i]? = s.jobs[i]? ∨
    ∃ j0, s.jobs[i]? = some j0 ∧ ((deletejob s p).1.jobs)[i]? = some clearedJob := by
  obtain ⟨t, n⟩ := s
  rcases deletejob_cases t n p with ⟨heq, _⟩ |
    ⟨hp, l1, j0, l2, hsplit, hpid0, _, hjobs, _, _⟩
  · left
    rw [heq]
  · rw [hjobs, hsplit]
    rcases slot_of_decomp l1 l2 j0 clearedJob i with h | ⟨h1, h2⟩
    · left
      exact h
    · right
      exact ⟨j0, h1, h2⟩

/-- Counterexample to C6 as stated: from the reachable state `cexC6a`
(one Background job, pid 5, in slot 0) the `fg 5` built-in is a single
machine step after which slot 0 is Foreground — a direct BG→FG
transition with no intermediate Stopped state and no removal. -/
theorem claim_C6_counterexample :
    Reachable cexC6a ∧ Step cexC6a cexC6b ∧
    cexC6a.st.jobs[0]? = some ⟨5, 1, BG, "x\n"⟩ ∧
    cexC6b.st.jobs[0]? = some ⟨5, 1, FG, "x\n"⟩ := by
  refine ⟨?_, ?_, by decide, by decide⟩
  · exact Reachable.step Reachable.init (Step.launchBG ⟨initState, .ready⟩ 5 "x\n" rfl)
  · exact Step.resume cexC6a "fg" (some "5") rfl (Or.inl rfl)

/-- Claim C6 (amended): along every step from a reachable state no slot
ever changes directly from Foreground to Background.  The direct
Background→Foreground transition, by contrast, does occur: it is the
effect of the `fg` built-in on a running background job (see the
counterexample), exactly as the transition table in the source comments
documents. -/
theorem claim_C6 (s s2 : ShellState) (hreach : Reachable s) (hstep : Step s s2)
    (i : Nat) (j j2 : Job) (hj : s.st.jobs[i]? = some j)
    (hj2 : s2.st.jobs[i]? = some j2) (hFG : j.state = FG) : j2.state ≠ BG := by
  obtain ⟨hle, hready, hwait, hclean⟩ := inv_of_reachable hreach
  cases hstep with
  | launchFG pid cmd h =>
      have hj2a : ((addjob s.st pid FG cmd).st.jobs)[i]? = some j2 := hj2
      rcases slot_addjob s.st pid FG cmd i with heq | ⟨j0, h1, h0, h2⟩
      · rw [heq, hj] at hj2a
        injection hj2a with hjj
        rw [← hjj, hFG]
        decide
      · have hmem : j0 ∈ s.st.jobs := List.getElem?_mem h1
        rw [h1] at hj
        injection hj with hjj
        subst hjj
        have hclean0 := (hclean j0 hmem h0).2.1
        rw [hclean0] at hFG
        exact absurd hFG (by decide)
  | launchBG pid cmd h =>
      have h0 := hready h
      have hmem := List.getElem?_mem hj
      exact absurd hFG (countIf_eq_zero.mp h0 j hmem)
  | resume c arg h hc =>
      have h0 := hready h
      have hmem := List.getElem?_mem hj
      exact absurd hFG (countIf_eq_zero.mp h0 j hmem)
  | wake p h hfg =>
      have hj2a : s.st.jobs[i]? = some j2 := hj2
      rw [hj] at hj2a
      injection hj2a with hjj
      rw [← hjj, hFG]
      decide
  | reap e r hr =>
      have hj2a : r.1.jobs[i]? = some j2 := hj2
      cases e with
      | exited pid =>
          have hrr : r.1 = (deletejob s.st pid).1 := by
            simp [sigchldStep] at hr
            rw [← hr]
          rw [hrr] at hj2a
          rcases slot_deletejob s.st pid i with heq | ⟨j0, h1, h2⟩
          · rw [heq, hj] at hj2a
            injection hj2a with hjj
            rw [← hjj, hFG]
            decide
          · rw [h2] at hj2a
            injection hj2a with hjj
            rw [← hjj]
            decide
      | signaled pid sig =>
          have hrr : r.1 = (deletejob s.st pid).1 := by
            simp [sigchldStep] at hr
            rw [← hr]
          rw [hrr] at hj2a
          rcases slot_deletejob s.st pid i with heq | ⟨j0, h1, h2⟩
          · rw [heq, hj] at hj2a
            injection hj2a with hjj
            rw [← hjj, hFG]
            decide
          · rw [h2] at hj2a
            injection hj2a with hjj
            rw [← hjj]
            decide
      | stopped pid sig =>
          rcases hg : getjobpid s.st.jobs pid with _ | j0
          · simp [sigchldStep, hg] at hr
          · have hrr : r.1.jobs =
                updFirst (pidPred pid) (fun x => ⟨x.pid, x.jid, ST, x.cmdline⟩) s.st.jobs := by
              simp [sigchldStep, hg] at hr
              rw [← hr]
            rw [hrr] at hj2a
            rcases slot_updFirst (pidPred pid) (fun x => ⟨x.pid, x.jid, ST, x.cmdline⟩)
                s.st.jobs i with heq | ⟨jx, h1, hpx, h2⟩
            · rw [heq, hj] at hj2a
              injection hj2a with hjj
              rw [← hjj, hFG]
              decide
            · rw [h2] at hj2a
              injection hj2a with hjj
              rw [← hjj]
              intro hcontra
              have : ST = BG := hcontra
              exact absurd this (by decide)

/-- Witness for C6 (amended) on a concrete step: reaping the exit of the
foreground job clears its slot, whose state is then `UNDEF`, not `BG`. -/
theorem claim_C6_witness : clearedJob.state ≠ BG :=
  claim_C6 cexC6wa cexC6wb
    (Reachable.step Reachable.init (Step.launchFG ⟨initState, .ready⟩ 7 "y\n" rfl))
    (Step.reap cexC6wa (.exited 7) ((deletejob cexC6wa.st 7).1, []) rfl)
    0 ⟨7, 1, FG, "y\n"⟩ clearedJob (by decide) (by decide) (by decide)

end Tsh
